import Mathlib

/-!
Shallow embedding of the core logic of src/crypto_tracker.py (a Streamlit
crypto-portfolio tracker).  Amounts and prices are modelled as rationals;
the resolver table and the price map are association lists standing for the
Python dicts (the code only reads them via dict.get, which the first-match
lookup below models; entries are assumed already deduplicated the way dict
insertion leaves them).  Each user interaction handler (the add form submit,
the Delete Selected button, the per-row edit Save/Discard buttons) becomes a
pure function from the session state it reads to the state it writes,
together with flags recording whether it wrote to the persistence file and
which messages it emitted.
-/

set_option autoImplicit false

namespace CryptoTracker

/-- One element of the persisted/in-memory portfolio list.  The add handler
(crypto_tracker.py lines 174-179) appends dicts with exactly these keys. -/
structure Holding where
  ticker : String
  coingecko_id : String
  amount : ℚ
  cost_basis : ℚ
deriving Repr, DecidableEq

/-- The resolver table built by get_coin_list: lowercased symbols and names
mapped to CoinGecko ids.  Supplied externally (network snapshot). -/
abbrev CoinMap := List (String × String)

/-- First-match association-list lookup, modelling Python dict.get. -/
def lookupAssoc {β : Type} : List (String × β) → String → Option β
  | [], _ => none
  | (k, v) :: rest, key => if k = key then some v else lookupAssoc rest key

/-- Embeds Python str.lower (character-wise lowercasing). -/
def toLowerStr (s : String) : String :=
  String.mk (s.data.map Char.toLower)

/-- Embeds Python str.upper (character-wise uppercasing). -/
def toUpperStr (s : String) : String :=
  String.mk (s.data.map Char.toUpper)

/-- Embeds Python str.strip (drop leading and trailing whitespace). -/
def trimStr (s : String) : String :=
  String.mk (((s.data.dropWhile Char.isWhitespace).reverse.dropWhile
    Char.isWhitespace).reverse)

/-- Embeds get_coingecko_id (crypto_tracker.py lines 92-97): lowercases the
input and looks it up in the coin map. -/
def get_coingecko_id (coinIdMap : CoinMap) (tickerOrName : String) : Option String :=
  lookupAssoc coinIdMap (toLowerStr tickerOrName)

/-- The form preprocessing of the symbol field (line 147):
text.upper().strip(). -/
def normalizeSymbol (s : String) : String :=
  trimStr (toUpperStr s)

/-- Embeds the merge loop of the add handler (lines 166-172): walk the
portfolio, increment the amount of the first record whose coingecko_id
matches, and report whether a match was found. -/
def mergeFirst (id : String) (amt : ℚ) : List Holding → List Holding × Bool
  | [] => ([], false)
  | h :: rest =>
    if h.coingecko_id = id then
      ({ h with amount := h.amount + amt } :: rest, true)
    else
      let r := mergeFirst id amt rest
      (h :: r.1, r.2)

/-- Outcome of one submission of the add form: the new portfolio, whether
save_portfolio ran, and which of the two error paths (invalid ticker flag,
missing-input warning) fired. -/
structure SubmitResult where
  portfolio : List Holding
  saved : Bool
  ticker_not_found : Bool
  warned : Bool
deriving Repr, DecidableEq

/-- Embeds the add_coin_form submit handler (lines 158-194).  The raw text is
uppercased and stripped; the handler requires a non-empty symbol and a
positive amount, resolves the symbol, merges into the first record with the
same coingecko_id or appends a fresh record (cost_basis 0), and saves once on
success.  On resolver failure it only sets the ticker_not_found flag; on a
missing/empty input it only warns. -/
def addSubmit (m : CoinMap) (portfolio : List Holding) (rawSymbol : String)
    (amount : ℚ) : SubmitResult :=
  let symbol := normalizeSymbol rawSymbol
  if symbol ≠ "" ∧ 0 < amount then
    match get_coingecko_id m symbol with
    | some id =>
      let merged := mergeFirst id amount portfolio
      let p :=
        if merged.2 then merged.1
        else portfolio ++ [{ ticker := symbol, coingecko_id := id,
                             amount := amount, cost_basis := 0 }]
      { portfolio := p, saved := true, ticker_not_found := false, warned := false }
    | none =>
      { portfolio := portfolio, saved := false, ticker_not_found := true, warned := false }
  else
    { portfolio := portfolio, saved := false, ticker_not_found := false, warned := true }

/-- Folds a sequence of add-form submissions over a starting portfolio. -/
def addAll (m : CoinMap) (inputs : List (String × ℚ)) (p : List Holding) :
    List Holding :=
  inputs.foldl (fun acc x => (addSubmit m acc x.1 x.2).portfolio) p

/-- The price map returned by get_crypto_prices: coingecko_id to USD price. -/
abbrev PriceMap := List (String × ℚ)

/-- Embeds current_prices.get(coingecko_id, 0.0) (line 214). -/
def priceLookup (prices : PriceMap) (id : String) : ℚ :=
  (lookupAssoc prices id).getD 0

/-- One element of holdings_data_display (lines 218-224). -/
structure DisplayRow where
  symbol : String
  coingecko_id : String
  amount : ℚ
  price : ℚ
  value : ℚ
deriving Repr, DecidableEq

/-- The row built for one holding inside the valuation loop (lines 209-224):
price defaults to 0 on a missing key and value = price * amount. -/
def rowOf (prices : PriceMap) (h : Holding) : DisplayRow :=
  let price := priceLookup prices h.coingecko_id
  { symbol := h.ticker, coingecko_id := h.coingecko_id, amount := h.amount,
    price := price, value := price * h.amount }

/-- Embeds the valuation loop (lines 206-224): iterates the portfolio in
stored order, appending one display row per holding and accumulating
total_value.  Returns (holdings_data_display, total_value). -/
def valuation (portfolio : List Holding) (prices : PriceMap) :
    List DisplayRow × ℚ :=
  portfolio.foldl
    (fun acc h =>
      let row := rowOf prices h
      (acc.1 ++ [row], acc.2 + row.value))
    ([], 0)

/-- Embeds the Delete Selected handler (lines 227-240): keeps exactly the
holdings whose ticker is not in the selected set, clears the selection, and
calls save_portfolio once.  Returns (new portfolio, new selection, number of
save_portfolio calls). -/
def deleteSelected (selected : List String) (portfolio : List Holding) :
    List Holding × List String × Nat :=
  (portfolio.filter (fun h => h.ticker ∉ selected), [], 1)

/-- Embeds the in-place amount update of the edit Save handler
(lines 319-322): set the amount of the first record with the given ticker. -/
def updateTicker (symbol : String) (newAmount : ℚ) : List Holding → List Holding
  | [] => []
  | h :: rest =>
    if h.ticker = symbol then { h with amount := newAmount } :: rest
    else h :: updateTicker symbol newAmount rest

/-- Session state touched by the per-row edit widget, with counters for
persistence writes and success notifications. -/
structure EditSession where
  portfolio : List Holding
  edit_row : Option String
  saves : Nat
  notices : Nat
deriving Repr, DecidableEq

/-- Embeds the edit Save button (lines 317-329).  The active Save button is
rendered only when new_amount differs from the snapshotted
edit_original_amount; clicking it updates the record in place, saves, emits a
success notice and leaves edit mode.  When the values are equal the button is
rendered disabled, so a click changes nothing. -/
def saveClick (s : EditSession) (originalAmount : ℚ) (symbol : String)
    (newAmount : ℚ) : EditSession :=
  if newAmount ≠ originalAmount then
    { portfolio := updateTicker symbol newAmount s.portfolio,
      edit_row := none, saves := s.saves + 1, notices := s.notices + 1 }
  else
    s

/-- Embeds the edit Discard button (lines 331-333): leaves edit mode and
touches nothing else — in particular it never calls the amount update and
never saves, whatever was typed. -/
def discardClick (s : EditSession) : EditSession :=
  { s with edit_row := none }

/-- Embeds the pie-chart data preparation (line 351): holdings with a
strictly positive value. -/
def non_zero_holdings (rows : List DisplayRow) : List DisplayRow :=
  rows.filter (fun r => 0 < r.value)

/-- Embeds the Portfolio Allocation chart (lines 349-363).  The chart is
rendered only when some row has positive value; it receives the filtered
labels and values, and go.Pie with hoverinfo label+percent displays each
slice as value / (sum of the passed values) * 100.  When every value is
non-positive no chart is drawn, modelled as the empty sequence. -/
def allocation (rows : List DisplayRow) : List (String × ℚ) :=
  let nz := non_zero_holdings rows
  if nz.isEmpty then []
  else
    let s := (nz.map (fun r => r.value)).sum
    nz.map (fun r => (r.symbol, r.value / s * 100))

/-- JSON values, the possible contents of portfolio_data.json. -/
inductive Json where
  | null
  | bool (b : Bool)
  | num (q : ℚ)
  | str (s : String)
  | arr (xs : List Json)
  | obj (fields : List (String × Json))

/-- Tests the isinstance(data, list) check of load_portfolio (line 105). -/
def isList : Json → Bool
  | Json.arr _ => true
  | _ => false

/-- Extracts the element list of a JSON array, empty otherwise. -/
def listElems : Json → List Json
  | Json.arr xs => xs
  | _ => []

/-- Embeds load_portfolio (lines 100-113).  The input is the outcome of
json.load on the file: none stands for a JSONDecodeError, some j for a
successfully parsed root value.  Returns the loaded portfolio list together
with a flag recording whether a corruption diagnostic (st.error) was
reported.  A missing file yields an empty portfolio with no diagnostic. -/
def load_portfolio (fileExists : Bool) (parsed : Option Json) :
    List Json × Bool :=
  if fileExists then
    match parsed with
    | some j => if isList j then (listElems j, false) else ([], true)
    | none => ([], true)
  else
    ([], false)

/-- Embeds save_portfolio (lines 115-117): the document json.dump writes is
the portfolio list itself. -/
def save_portfolio (portfolio : List Json) : Json :=
  Json.arr portfolio

/-! Helper lemmas shared by several claims. -/

/-- Unfolds the valuation fold against an arbitrary accumulator. -/
lemma valuation_foldl (prices : PriceMap) (p : List Holding)
    (acc : List DisplayRow × ℚ) :
    p.foldl
      (fun acc h =>
        let row := rowOf prices h
        (acc.1 ++ [row], acc.2 + row.value))
      acc
      = (acc.1 ++ p.map (rowOf prices),
         acc.2 + (p.map (fun h => (rowOf prices h).value)).sum) := by
  induction p generalizing acc with
  | nil => simp
  | cons h l ih => simp [ih, add_assoc]

/-- The valuation loop produces exactly the mapped rows. -/
lemma valuation_fst (p : List Holding) (prices : PriceMap) :
    (valuation p prices).1 = p.map (rowOf prices) := by
  simp [valuation, valuation_foldl]

/-- The accumulated total is the sum of the produced row values. -/
lemma valuation_snd (p : List Holding) (prices : PriceMap) :
    (valuation p prices).2 = (p.map (fun h => (rowOf prices h).value)).sum := by
  simp [valuation, valuation_foldl]

/-- On an empty price map every lookup defaults to zero. -/
lemma priceLookup_nil (id : String) : priceLookup [] id = 0 := rfl

/-! C2 — Valuation. -/

/-- C2: the valuation produces one row per ledger record in stored order
(the row of a record combines its ticker, id and amount with the looked-up
price), each row's value equals amount * price with an absent provider id
contributing price 0, the returned total is the exact sum of all row values,
and with an empty price map every row's value and the total are 0. -/
theorem valuation_rows_and_total (p : List Holding) (prices : PriceMap) :
    (valuation p prices).1 = p.map (rowOf prices)
    ∧ (∀ r ∈ (valuation p prices).1, r.value = r.amount * r.price)
    ∧ (∀ h ∈ p, lookupAssoc prices h.coingecko_id = none →
        (rowOf prices h).price = 0)
    ∧ (valuation p prices).2
        = ((valuation p prices).1.map (fun r => r.value)).sum
    ∧ (∀ r ∈ (valuation p []).1, r.value = 0)
    ∧ (valuation p []).2 = 0 := by
  refine ⟨valuation_fst p prices, ?_, ?_, ?_, ?_, ?_⟩
  · intro r hr
    rw [valuation_fst] at hr
    rcases List.mem_map.mp hr with ⟨h, _, rfl⟩
    simp [rowOf, mul_comm]
  · intro h _ hnone
    simp [rowOf, priceLookup, hnone]
  · rw [valuation_fst, valuation_snd, List.map_map]
    rfl
  · intro r hr
    rw [valuation_fst] at hr
    rcases List.mem_map.mp hr with ⟨h, _, rfl⟩
    simp [rowOf, priceLookup_nil]
  · rw [valuation_snd]
    have : ∀ h : Holding, (rowOf [] h).value = 0 := by
      intro h; simp [rowOf, priceLookup_nil]
    simp [this]

/-- Witness for C2: concrete evaluation on the spec's example ledger
[(A, 2), (B, 1)] with prices (A: 10, B: 20) gives total 40, and a record
missing from the price map gets price 0. -/
theorem valuation_rows_and_total_witness :
    (valuation [⟨"A", "aid", 2, 0⟩, ⟨"B", "bid", 1, 0⟩]
      [("aid", 10), ("bid", 20)]).2 = 40
    ∧ (rowOf [("aid", 10)] ⟨"B", "bid", 1, 0⟩).price = 0 := by
  constructor
  · rw [(valuation_rows_and_total [⟨"A", "aid", 2, 0⟩, ⟨"B", "bid", 1, 0⟩]
      [("aid", 10), ("bid", 20)]).2.2.2.1, valuation_fst]
    norm_num [rowOf, priceLookup, lookupAssoc,
      show ("aid" : String) ≠ "bid" by decide]
  · exact (valuation_rows_and_total [⟨"A", "aid", 2, 0⟩, ⟨"B", "bid", 1, 0⟩]
      [("aid", 10)]).2.2.1 ⟨"B", "bid", 1, 0⟩ (by decide) (by decide)

/-! C6 — Load fails soft. -/

/-- C6: for every parse outcome of the persisted file, a deserialization
error (none) or a successfully parsed root value that is not a list yields
the empty portfolio together with a reported diagnostic; load is a total
function, so it never crashes on any content. -/
theorem load_fails_soft (parsed : Option Json)
    (h : parsed = none ∨ ∃ j, parsed = some j ∧ isList j = false) :
    load_portfolio true parsed = ([], true) := by
  rcases h with h | ⟨j, hj, hl⟩
  · rw [h]; rfl
  · rw [hj]; simp [load_portfolio, hl]

/-- Witness for C6: a decode error and a non-list root (a JSON object) both
degrade to the empty portfolio plus a diagnostic. -/
theorem load_fails_soft_witness :
    load_portfolio true none = ([], true)
    ∧ load_portfolio true (some (Json.obj [])) = ([], true) :=
  ⟨load_fails_soft none (Or.inl rfl),
   load_fails_soft (some (Json.obj [])) (Or.inr ⟨Json.obj [], rfl, rfl⟩)⟩

/-! C9 — Persistence round-trip. -/

/-- C9: for every persisted document that load accepts as a record sequence
(a JSON list root), saving the loaded portfolio reproduces the document
exactly — the same records with the same amounts in the same order. -/
theorem save_load_round_trip (doc : Json) (h : isList doc = true) :
    save_portfolio (load_portfolio true (some doc)).1 = doc := by
  cases doc <;> simp_all [isList, load_portfolio, listElems, save_portfolio]

/-- Witness for C9: round trip on a concrete two-record document. -/
theorem save_load_round_trip_witness :
    save_portfolio (load_portfolio true
      (some (Json.arr [Json.str "x", Json.num 2]))).1
      = Json.arr [Json.str "x", Json.num 2] :=
  save_load_round_trip (Json.arr [Json.str "x", Json.num 2]) rfl

/-! C4 — No-op edit commits nothing. -/

/-- C4: committing an edit whose new amount equals the snapshotted original
leaves the whole session unchanged (no persistence write, no updated
notification, portfolio untouched); a discard transition only leaves edit
mode, never touching the portfolio, the save counter or the notification
counter, whatever was typed; and a commit with a different value updates the
record in place, saves once and notifies once. -/
theorem noop_edit_commits_nothing (s : EditSession) (sym : String)
    (orig amt : ℚ) :
    saveClick s orig sym orig = s
    ∧ discardClick s = { s with edit_row := none }
    ∧ (amt ≠ orig → saveClick s orig sym amt =
        { portfolio := updateTicker sym amt s.portfolio, edit_row := none,
          saves := s.saves + 1, notices := s.notices + 1 }) := by
  refine ⟨by simp [saveClick], rfl, fun h => by simp [saveClick, h]⟩

/-- Witness for C4: a no-op commit at amount 2 changes nothing, and a real
commit from 2 to 3 updates the record, saves and notifies. -/
theorem noop_edit_commits_nothing_witness :
    saveClick ⟨[⟨"BTC", "bitcoin", 2, 0⟩], some "BTC", 0, 0⟩ 2 "BTC" 2
      = ⟨[⟨"BTC", "bitcoin", 2, 0⟩], some "BTC", 0, 0⟩
    ∧ saveClick ⟨[⟨"BTC", "bitcoin", 2, 0⟩], some "BTC", 0, 0⟩ 2 "BTC" 3
      = ⟨[⟨"BTC", "bitcoin", 3, 0⟩], none, 1, 1⟩ := by
  constructor
  · exact (noop_edit_commits_nothing
      ⟨[⟨"BTC", "bitcoin", 2, 0⟩], some "BTC", 0, 0⟩ "BTC" 2 3).1
  · exact ((noop_edit_commits_nothing
      ⟨[⟨"BTC", "bitcoin", 2, 0⟩], some "BTC", 0, 0⟩ "BTC" 2 3).2.2
      (by norm_num)).trans (by decide)

/-! C7 — Failed add is atomic. -/

/-- C7: when the form has a non-empty symbol and a positive amount but the
resolver cannot map the symbol to a provider id, the submission reports the
invalid-ticker error, leaves the portfolio completely unchanged and performs
no persistence write. -/
theorem failed_add_atomic (m : CoinMap) (p : List Holding) (sym : String)
    (a : ℚ) (hs : normalizeSymbol sym ≠ "") (ha : 0 < a)
    (hres : get_coingecko_id m (normalizeSymbol sym) = none) :
    addSubmit m p sym a
      = { portfolio := p, saved := false, ticker_not_found := true,
          warned := false } := by
  simp [addSubmit, hs, ha, hres]

/-- Witness for C7: an unknown ticker against an empty resolver table leaves
a one-record portfolio untouched and unsaved. -/
theorem failed_add_atomic_witness :
    addSubmit [] [⟨"ETH", "ethereum", 1, 0⟩] "BTC" 1
      = { portfolio := [⟨"ETH", "ethereum", 1, 0⟩], saved := false,
          ticker_not_found := true, warned := false } :=
  failed_add_atomic [] [⟨"ETH", "ethereum", 1, 0⟩] "BTC" 1
    (by decide) (by norm_num) (by decide)

/-! C8 — Non-negative amount invariant. -/

/-- C8: the edit number_input (line 302) has no lower bound, unlike the add
input, so the Save handler accepts a negative typed amount: starting from a
record with amount 2, committing the edit with new amount -5 stores -5 in
the ledger, violating the documented amount >= 0 invariant. -/
theorem negative_amount_reachable_via_edit :
    (saveClick ⟨[⟨"BTC", "bitcoin", 2, 0⟩], some "BTC", 0, 0⟩ 2 "BTC"
        (-5)).portfolio
      = [⟨"BTC", "bitcoin", -5, 0⟩]
    ∧ ((-5 : ℚ) < 0) := by decide

/-! C3 — Batch remove. -/

/-- Counterexample for C3: the Delete Selected handler filters on the ticker
field, not the provider id. A record whose coingecko_id (bitcoin) is in the
selected set survives the deletion because its ticker (BTC) is not in the
set, contradicting deletion keyed by provider id. -/
theorem delete_by_provider_id_refuted :
    (⟨"BTC", "bitcoin", 1, 0⟩ : Holding).coingecko_id ∈ ["bitcoin"]
    ∧ (deleteSelected ["bitcoin"] [⟨"BTC", "bitcoin", 1, 0⟩]).1
        = [⟨"BTC", "bitcoin", 1, 0⟩] := by decide

/-- C3 (amended): deletion is keyed by ticker. For every ledger and selected
set of tickers, the handler deletes exactly the records whose ticker is in
the set (tickers not present are silent no-ops), keeps the remaining records
in their original order (the result is a sublist of the input), and performs
exactly one persistence write for the whole batch. -/
theorem delete_selected_by_ticker (selected : List String)
    (p : List Holding) :
    (deleteSelected selected p).1 = p.filter (fun h => h.ticker ∉ selected)
    ∧ List.Sublist (deleteSelected selected p).1 p
    ∧ (∀ h ∈ p, h.ticker ∉ selected → h ∈ (deleteSelected selected p).1)
    ∧ (∀ h ∈ (deleteSelected selected p).1, h.ticker ∉ selected)
    ∧ ((∀ h ∈ p, h.ticker ∉ selected) → (deleteSelected selected p).1 = p)
    ∧ (deleteSelected selected p).2.2 = 1 := by
  refine ⟨rfl, List.filter_sublist p, ?_, ?_, ?_, rfl⟩
  · intro h hp hsel
    simpa [deleteSelected, List.mem_filter] using ⟨hp, hsel⟩
  · intro h hmem
    have := (List.mem_filter.mp hmem).2
    simpa using this
  · intro hall
    simp only [deleteSelected]
    exact List.filter_eq_self.mpr (fun h hp => by simpa using hall h hp)

/-- Witness for C3 (amended): deleting the set containing ticker BTC from a
two-record ledger keeps exactly the ETH record, in order, with one save. -/
theorem delete_selected_by_ticker_witness :
    (⟨"ETH", "ethereum", 2, 0⟩ : Holding)
      ∈ (deleteSelected ["BTC"]
          [⟨"BTC", "bitcoin", 1, 0⟩, ⟨"ETH", "ethereum", 2, 0⟩]).1
    ∧ (deleteSelected ["BTC"]
        [⟨"BTC", "bitcoin", 1, 0⟩, ⟨"ETH", "ethereum", 2, 0⟩]).2.2 = 1 :=
  ⟨(delete_selected_by_ticker ["BTC"]
      [⟨"BTC", "bitcoin", 1, 0⟩, ⟨"ETH", "ethereum", 2, 0⟩]).2.2.1
      ⟨"ETH", "ethereum", 2, 0⟩ (by decide) (by decide),
   (delete_selected_by_ticker ["BTC"]
      [⟨"BTC", "bitcoin", 1, 0⟩, ⟨"ETH", "ethereum", 2, 0⟩]).2.2.2.2.2⟩

/-! Merge lemmas for the add handler. -/

/-- When no record carries the resolved id, the merge loop finds nothing and
leaves the portfolio unchanged. -/
lemma mergeFirst_not_found (id : String) (a : ℚ) (p : List Holding)
    (h : ∀ x ∈ p, x.coingecko_id ≠ id) :
    mergeFirst id a p = (p, false) := by
  induction p with
  | nil => rfl
  | cons x l ih =>
    have hx : x.coingecko_id ≠ id := h x (List.mem_cons_self x l)
    have hl := ih (fun y hy => h y (List.mem_cons_of_mem x hy))
    simp [mergeFirst, hx, hl]

/-- When the first record carrying the resolved id sits after a prefix free
of that id, the merge loop increments exactly that record's amount. -/
lemma mergeFirst_found (id : String) (a : ℚ) (p₁ : List Holding)
    (r : Holding) (p₂ : List Holding)
    (h₁ : ∀ x ∈ p₁, x.coingecko_id ≠ id) (hr : r.coingecko_id = id) :
    mergeFirst id a (p₁ ++ r :: p₂)
      = (p₁ ++ { r with amount := r.amount + a } :: p₂, true) := by
  induction p₁ with
  | nil => simp [mergeFirst, hr]
  | cons x l ih =>
    have hx : x.coingecko_id ≠ id := h₁ x (List.mem_cons_self x l)
    have hl := ih (fun y hy => h₁ y (List.mem_cons_of_mem x hy))
    simp [mergeFirst, hx, hl]

/-- A successful submission whose resolved id is absent from the portfolio
appends a fresh record at the end and saves. -/
lemma addSubmit_appends (m : CoinMap) (p : List Holding) (sym : String)
    (a : ℚ) (id : String) (hs : normalizeSymbol sym ≠ "") (ha : 0 < a)
    (hres : get_coingecko_id m (normalizeSymbol sym) = some id)
    (hnot : ∀ x ∈ p, x.coingecko_id ≠ id) :
    addSubmit m p sym a
      = { portfolio := p ++ [{ ticker := normalizeSymbol sym,
                               coingecko_id := id, amount := a,
                               cost_basis := 0 }],
          saved := true, ticker_not_found := false, warned := false } := by
  simp [addSubmit, hs, ha, hres, mergeFirst_not_found id a p hnot]

/-- A successful submission whose resolved id is already present increments
the first matching record's amount in place and saves. -/
lemma addSubmit_merges (m : CoinMap) (p₁ : List Holding) (r : Holding)
    (p₂ : List Holding) (sym : String) (a : ℚ) (id : String)
    (hs : normalizeSymbol sym ≠ "") (ha : 0 < a)
    (hres : get_coingecko_id m (normalizeSymbol sym) = some id)
    (hnot : ∀ x ∈ p₁, x.coingecko_id ≠ id) (hr : r.coingecko_id = id) :
    addSubmit m (p₁ ++ r :: p₂) sym a
      = { portfolio := p₁ ++ { r with amount := r.amount + a } :: p₂,
          saved := true, ticker_not_found := false, warned := false } := by
  simp [addSubmit, hs, ha, hres, mergeFirst_found id a p₁ r p₂ hnot hr]

/-- Folding further same-id submissions over a portfolio that already holds
the record accumulates all their amounts into that record and nothing else. -/
lemma addAll_merges_all (m : CoinMap) (inputs : List (String × ℚ))
    (id : String)
    (hall : ∀ x ∈ inputs, normalizeSymbol x.1 ≠ "" ∧ 0 < x.2 ∧
      get_coingecko_id m (normalizeSymbol x.1) = some id)
    (p₁ p₂ : List Holding) (r : Holding)
    (hnot : ∀ x ∈ p₁, x.coingecko_id ≠ id) (hr : r.coingecko_id = id) :
    addAll m inputs (p₁ ++ r :: p₂)
      = p₁ ++ { r with amount := r.amount + (inputs.map (fun x => x.2)).sum }
          :: p₂ := by
  induction inputs generalizing r with
  | nil =>
    cases r
    simp [addAll]
  | cons x rest ih =>
    have hx := hall x (List.mem_cons_self x rest)
    have hrest : ∀ y ∈ rest, normalizeSymbol y.1 ≠ "" ∧ 0 < y.2 ∧
        get_coingecko_id m (normalizeSymbol y.1) = some id :=
      fun y hy => hall y (List.mem_cons_of_mem x hy)
    have hstep := addSubmit_merges m p₁ r p₂ x.1 x.2 id hx.1 hx.2.1 hx.2.2
      hnot hr
    have hnext := ih hrest { r with amount := r.amount + x.2 } hr
    calc addAll m (x :: rest) (p₁ ++ r :: p₂)
        = addAll m rest (addSubmit m (p₁ ++ r :: p₂) x.1 x.2).portfolio := by
          simp [addAll]
      _ = addAll m rest (p₁ ++ { r with amount := r.amount + x.2 } :: p₂) := by
          rw [hstep]
      _ = p₁ ++ { r with
                  amount := r.amount + x.2 + (rest.map (fun x => x.2)).sum }
            :: p₂ := hnext
      _ = p₁ ++ { r with
                  amount := r.amount + ((x :: rest).map (fun x => x.2)).sum }
            :: p₂ := by
          simp [add_assoc]

/-! C1 — Merge-on-add. -/

/-- C1: for every non-empty sequence of add submissions whose symbols all
resolve (case handled inside the resolver) to the same provider id, starting
from a ledger free of that id, the resulting ledger is the original one with
exactly one new record appended at the end: its ticker is the normalized
first symbol, its id the shared provider id, and its amount the sum of all
the added amounts.  In particular the ledger holds exactly one record for
that id, and insertion order is preserved. -/
theorem merge_on_add_accumulates (m : CoinMap) (t : String) (a : ℚ)
    (inputs : List (String × ℚ)) (id : String) (p : List Holding)
    (hall : ∀ x ∈ (t, a) :: inputs, normalizeSymbol x.1 ≠ "" ∧ 0 < x.2 ∧
      get_coingecko_id m (normalizeSymbol x.1) = some id)
    (hnot : ∀ x ∈ p, x.coingecko_id ≠ id) :
    addAll m ((t, a) :: inputs) p
      = p ++ [{ ticker := normalizeSymbol t, coingecko_id := id,
                amount := a + (inputs.map (fun x => x.2)).sum,
                cost_basis := 0 }]
    ∧ (addAll m ((t, a) :: inputs) p).countP
        (fun h => h.coingecko_id = id) = 1 := by
  have ht := hall (t, a) (List.mem_cons_self (t, a) inputs)
  have hrest : ∀ y ∈ inputs, normalizeSymbol y.1 ≠ "" ∧ 0 < y.2 ∧
      get_coingecko_id m (normalizeSymbol y.1) = some id :=
    fun y hy => hall y (List.mem_cons_of_mem (t, a) hy)
  have hmain : addAll m ((t, a) :: inputs) p
      = p ++ [{ ticker := normalizeSymbol t, coingecko_id := id,
                amount := a + (inputs.map (fun x => x.2)).sum,
                cost_basis := 0 }] := by
    have hfirst := addSubmit_appends m p t a id ht.1 ht.2.1 ht.2.2 hnot
    have htail := addAll_merges_all m inputs id hrest p []
      { ticker := normalizeSymbol t, coingecko_id := id, amount := a,
        cost_basis := 0 } hnot rfl
    calc addAll m ((t, a) :: inputs) p
        = addAll m inputs (addSubmit m p t a).portfolio := by simp [addAll]
      _ = addAll m inputs (p ++ [{ ticker := normalizeSymbol t,
                                   coingecko_id := id, amount := a,
                                   cost_basis := 0 }]) := by
          rw [hfirst]
      _ = p ++ [{ ticker := normalizeSymbol t, coingecko_id := id,
                  amount := a + (inputs.map (fun x => x.2)).sum,
                  cost_basis := 0 }] := by
          simpa using htail
  refine ⟨hmain, ?_⟩
  rw [hmain, List.countP_append]
  have hzero : p.countP (fun h => h.coingecko_id = id) = 0 :=
    List.countP_eq_zero.mpr (fun x hx => by simp [hnot x hx])
  simp [hzero, List.countP_cons]

/-- Witness for C1: the spec's example — adding BTC 1 then btc 1/2 against a
resolver that maps btc to bitcoin yields the single record
(BTC, bitcoin, 3/2). -/
theorem merge_on_add_accumulates_witness :
    addAll [("btc", "bitcoin")] [("BTC", 1), ("btc", 1/2)] []
      = [{ ticker := "BTC", coingecko_id := "bitcoin", amount := 3/2,
           cost_basis := 0 }] := by
  have h := (merge_on_add_accumulates [("btc", "bitcoin")] "BTC" 1
    [("btc", 1/2)] "bitcoin" []
    (by
      intro x hx
      fin_cases hx
      · exact ⟨by decide, by norm_num, by decide⟩
      · exact ⟨by decide, by norm_num, by decide⟩)
    (by intro x hx; simp at hx)).1
  rw [h]
  norm_num [show normalizeSymbol "BTC" = "BTC" from by decide]

/-! C10 — Merge frames everything but amount. -/

/-- C10: when a submission merges into the existing record carrying the
resolved id, only that record's amount changes — its stored ticker (the
casing given at the first add), its provider id and its cost basis are kept,
every other record is unchanged, and the record order is unchanged. -/
theorem merge_frames_only_amount (m : CoinMap) (p₁ p₂ : List Holding)
    (r : Holding) (sym : String) (a : ℚ) (id : String)
    (hs : normalizeSymbol sym ≠ "") (ha : 0 < a)
    (hres : get_coingecko_id m (normalizeSymbol sym) = some id)
    (hnot : ∀ x ∈ p₁, x.coingecko_id ≠ id) (hr : r.coingecko_id = id) :
    (addSubmit m (p₁ ++ r :: p₂) sym a).portfolio
      = p₁ ++ { ticker := r.ticker, coingecko_id := r.coingecko_id,
                amount := r.amount + a, cost_basis := r.cost_basis } :: p₂ := by
  rw [addSubmit_merges m p₁ r p₂ sym a id hs ha hres hnot hr]

/-- Witness for C10: merging btc 1 into a ledger holding (X, other, 5) and
(BTC, bitcoin, 2, cost basis 7) only changes the BTC amount to 3. -/
theorem merge_frames_only_amount_witness :
    (addSubmit [("btc", "bitcoin")]
      [⟨"X", "other", 5, 1⟩, ⟨"BTC", "bitcoin", 2, 7⟩] "btc" 1).portfolio
      = [⟨"X", "other", 5, 1⟩, ⟨"BTC", "bitcoin", 3, 7⟩] := by
  have h := merge_frames_only_amount [("btc", "bitcoin")] [⟨"X", "other", 5, 1⟩]
    [] ⟨"BTC", "bitcoin", 2, 7⟩ "btc" 1 "bitcoin" (by decide) (by norm_num)
    (by decide) (by decide) rfl
  refine Eq.trans ?_ (h.trans ?_)
  · rfl
  · norm_num

/-! C5 — Allocation. -/

/-- The sum of a list of non-negative rationals is non-negative. -/
lemma sum_nonneg_of_forall (l : List ℚ) (h : ∀ x ∈ l, 0 ≤ x) : 0 ≤ l.sum := by
  induction l with
  | nil => simp
  | cons x rest ih =>
    have hx := h x (List.mem_cons_self x rest)
    have hr := ih (fun y hy => h y (List.mem_cons_of_mem x hy))
    simp only [List.sum_cons]
    exact add_nonneg hx hr

/-- A list of non-negative rationals summing to zero is all zeros. -/
lemma all_zero_of_sum_zero (l : List ℚ) (h : ∀ x ∈ l, 0 ≤ x)
    (hs : l.sum = 0) : ∀ x ∈ l, x = 0 := by
  induction l with
  | nil => simp
  | cons x rest ih =>
    have hx := h x (List.mem_cons_self x rest)
    have hr : ∀ y ∈ rest, 0 ≤ y := fun y hy => h y (List.mem_cons_of_mem x hy)
    have hsum : 0 ≤ rest.sum := sum_nonneg_of_forall rest hr
    simp only [List.sum_cons] at hs
    have hx0 : x = 0 := le_antisymm (by linarith) hx
    have hrest0 : rest.sum = 0 := by linarith
    intro y hy
    rcases List.mem_cons.mp hy with hy | hy
    · rw [hy]; exact hx0
    · exact ih hr hrest0 y hy

/-- Dropping the zero-value rows does not change the value sum when every
value is non-negative. -/
lemma nz_sum_eq (rows : List DisplayRow) (h : ∀ r ∈ rows, 0 ≤ r.value) :
    ((non_zero_holdings rows).map (fun r => r.value)).sum
      = (rows.map (fun r => r.value)).sum := by
  induction rows with
  | nil => rfl
  | cons x rest ih =>
    have hx := h x (List.mem_cons_self x rest)
    have hr := ih (fun y hy => h y (List.mem_cons_of_mem x hy))
    simp only [non_zero_holdings] at hr ⊢
    rw [List.filter_cons]
    by_cases hpos : 0 < x.value
    · simp [hpos, hr]
    · have hx0 : x.value = 0 := le_antisymm (not_lt.mp hpos) hx
      simp [hpos, hr, hx0]

/-- Counterexample for C5: the chart omits zero-value rows even when the
total is positive.  With the ledger [(A, aid, 1), (B, bid, 1)] and the price
map (aid: 10), the valuation total is 10 > 0 and there are two rows, but the
allocation holds a single pair, not one pair per row. -/
theorem allocation_per_row_refuted :
    0 < (valuation [⟨"A", "aid", 1, 0⟩, ⟨"B", "bid", 1, 0⟩] [("aid", 10)]).2
    ∧ (valuation [⟨"A", "aid", 1, 0⟩, ⟨"B", "bid", 1, 0⟩]
        [("aid", 10)]).1.length = 2
    ∧ (allocation (valuation [⟨"A", "aid", 1, 0⟩, ⟨"B", "bid", 1, 0⟩]
        [("aid", 10)]).1).length = 1 := by
  refine ⟨?_, ?_, ?_⟩
  · rw [valuation_snd]
    norm_num [rowOf, priceLookup, lookupAssoc,
      show ("aid" : String) ≠ "bid" by decide]
  · rw [valuation_fst]; rfl
  · rw [valuation_fst]
    have h1 : (rowOf [("aid", 10)] ⟨"A", "aid", 1, 0⟩).value = 10 := by
      norm_num [rowOf, priceLookup, lookupAssoc]
    have h2 : (rowOf [("aid", 10)] ⟨"B", "bid", 1, 0⟩).value = 0 := by
      norm_num [rowOf, priceLookup, lookupAssoc,
        show ("aid" : String) ≠ "bid" by decide]
    simp [allocation, non_zero_holdings, List.filter_cons, h1, h2]

/-- C5 (amended): the chart data keeps only the rows with strictly positive
value.  Given non-negative row values: when the total (the sum of all row
values) is zero the allocation is the empty sequence (no division by zero);
when the total is positive the allocation holds one pair per positive-value
row, whose percentage is that row's value divided by the total times 100
(zero-value rows are omitted and contribute nothing to the total). -/
theorem allocation_positive_rows (rows : List DisplayRow)
    (hnn : ∀ r ∈ rows, 0 ≤ r.value) :
    ((rows.map (fun r => r.value)).sum = 0 → allocation rows = [])
    ∧ (0 < (rows.map (fun r => r.value)).sum →
        allocation rows = (non_zero_holdings rows).map
          (fun r => (r.symbol,
            r.value / (rows.map (fun r => r.value)).sum * 100))) := by
  constructor
  · intro htot
    have hall : ∀ x ∈ rows.map (fun r => r.value), (0 : ℚ) ≤ x := by
      intro x hx
      rcases List.mem_map.mp hx with ⟨r, hr, rfl⟩
      exact hnn r hr
    have hzero := all_zero_of_sum_zero (rows.map (fun r => r.value)) hall htot
    have hempty : non_zero_holdings rows = [] := by
      apply List.filter_eq_nil_iff.mpr
      intro r hr
      have : r.value = 0 := hzero r.value (List.mem_map.mpr ⟨r, hr, rfl⟩)
      simp [this]
    simp [allocation, hempty]
  · intro htot
    have hne : ¬(non_zero_holdings rows).isEmpty = true := by
      intro hemp
      have hnil : non_zero_holdings rows = [] := List.isEmpty_iff.mp hemp
      have := nz_sum_eq rows hnn
      rw [hnil] at this
      simp at this
      rw [← this] at htot
      exact lt_irrefl 0 htot
    simp only [allocation, hne, if_false, Bool.false_eq_true]
    rw [nz_sum_eq rows hnn]

/-- Witness for C5 (amended): a single positive row gets the whole pie, and
the all-miss price map yields the empty allocation. -/
theorem allocation_positive_rows_witness :
    allocation [⟨"A", "aid", 1, 10, 10⟩]
      = [("A", (10 : ℚ) / 10 * 100)]
    ∧ allocation [⟨"A", "aid", 1, 0, 0⟩] = [] := by
  constructor
  · have h := (allocation_positive_rows [⟨"A", "aid", 1, 10, 10⟩]
      (by intro r hr; fin_cases hr; norm_num)).2 (by norm_num)
    rw [h]
    norm_num [non_zero_holdings, List.filter_cons]
  · exact (allocation_positive_rows [⟨"A", "aid", 1, 0, 0⟩]
      (by intro r hr; fin_cases hr; norm_num)).1 (by norm_num)

end CryptoTracker
